import Mathlib

set_option maxHeartbeats 1000000

/-!
Shallow embedding of `cumulusci/tasks/metadata_etl/base.py`.

API names and filesystem paths are modelled as UTF-8 byte strings
(`List Nat`, each entry < 256), because `urllib.parse.quote`/`unquote`
operate on the UTF-8 encoding of the Python string.  XML documents held
by lxml are an abstract type parameter `Tree`; the lxml parser and
serializer are external collaborators, so a retrieved file's content is
modelled as either a well-formed document or a malformed blob, and
serialization records the tree together with the encoding and
xml-declaration arguments passed to `ElementTree.write`.
-/

/-- Bytes left intact by `quote(arg, safe=" ")`: the urllib always-safe set
(ASCII alphanumerics and `_ . - ~`) plus the space requested via `safe`. -/
def isSafeByte (b : Nat) : Bool :=
  decide ((48 ≤ b ∧ b ≤ 57) ∨ (65 ≤ b ∧ b ≤ 90) ∨ (97 ≤ b ∧ b ≤ 122) ∨
    b = 95 ∨ b = 46 ∨ b = 45 ∨ b = 126 ∨ b = 32)

/-- Uppercase hex digit byte for a nibble, as urllib renders `%XX`. -/
def hexDigit (n : Nat) : Nat := if n < 10 then 48 + n else 55 + n

def isHexDigitByte (b : Nat) : Bool :=
  decide ((48 ≤ b ∧ b ≤ 57) ∨ (65 ≤ b ∧ b ≤ 70) ∨ (97 ≤ b ∧ b ≤ 102))

def hexVal (b : Nat) : Nat :=
  if 48 ≤ b ∧ b ≤ 57 then b - 48
  else if 65 ≤ b ∧ b ≤ 70 then b - 55
  else if 97 ≤ b ∧ b ≤ 102 then b - 87
  else 0

/-- `urllib.parse.quote(arg, safe=" ")` on the UTF-8 bytes of `arg`. -/
def quoteB (s : List Nat) : List Nat :=
  s.flatMap fun b =>
    if isSafeByte b then [b] else [37, hexDigit (b / 16), hexDigit (b % 16)]

/-- `urllib.parse.unquote` at the byte level: each `%XX` with two hex digits
decodes to one byte; a `%` not followed by two hex digits is kept as-is. -/
def unquoteB : List Nat → List Nat
  | [] => []
  | b :: h :: l :: rest =>
    if b = 37 ∧ isHexDigitByte h = true ∧ isHexDigitByte l = true then
      (hexVal h * 16 + hexVal l) :: unquoteB rest
    else b :: unquoteB (h :: l :: rest)
  | b :: rest => b :: unquoteB rest

/-- UTF-8 code units of an ASCII Lean string, for concrete inputs. -/
def strBytes (s : String) : List Nat := s.toList.map Char.toNat

/-! ## Entity catalog and resolver (`MetadataSingleEntityTransformTask._transform`, first half) -/

/-- One entry of a `metadata_map` group, as consumed from
`PackageXmlGenerator.metadata_map`: a parser configuration with a
`type`, a `class` and an `extension` key. -/
structure Subentry where
  type : String
  className : String
  extension : List Nat
deriving DecidableEq

inductive TransformError where
  | unableToLocate (entity : String)
  | unsupportedEntity (entity : String)
  | fileNotFound (dir : List Nat)
  | cannotFind (path : List Nat)
  | parseFailure (filename : List Nat) (cause : String)
deriving DecidableEq

deriving instance DecidableEq for Except

def supportedParserClasses : List String :=
  ["MetadataFilenameParser", "CustomObjectParser"]

/-- The catalog scan in `_transform`: keep the groups having any subentry
whose `type` equals the task's entity, take the first such group and its
first subentry, and check that subentry's `class` against the supported
list.  The `head? = none` branch is unreachable because a group only
matches when one of its subentries does. -/
def resolveEntity (metadata_map : List (List Nat × List Subentry)) (entity : String) :
    Except TransformError (List Nat × List Nat) :=
  match metadata_map.filter (fun e => e.2.any (fun s => s.type == entity)) with
  | [] => Except.error (TransformError.unableToLocate entity)
  | e :: _ =>
    match e.2.head? with
    | none => Except.error (TransformError.unableToLocate entity)
    | some configuration =>
      if configuration.className ∈ supportedParserClasses then
        Except.ok (e.1, configuration.extension)
      else Except.error (TransformError.unsupportedEntity entity)

/-! ## Filesystem model and the per-entity transform engine -/

/-- A retrieved file is either an XML document lxml can parse or a
malformed blob on which `etree.parse` raises. -/
inductive FileContent (Tree : Type) where
  | xml (t : Tree)
  | malformed (msg : String)
deriving DecidableEq

/-- The retrieve staging area: `listing dir` is what `Path.iterdir`
yields for `retrieveRoot/dir` (`none` when the directory does not exist,
in which case `iterdir` raises `FileNotFoundError`); `content path`
is the file at `retrieveRoot/path` (`none` when `Path.exists` is false). -/
structure RetrieveFS (Tree : Type) where
  listing : List Nat → Option (List (List Nat))
  content : List Nat → Option (FileContent Tree)

/-- Result of `tree.write(f, encoding="utf-8", xml_declaration=True)`:
the document together with the serialization arguments used. -/
structure SerializedXml (Tree : Type) where
  doc : Tree
  encoding : String
  xml_declaration : Bool
deriving DecidableEq

def serializeXml {Tree : Type} (t : Tree) : SerializedXml Tree :=
  { doc := t, encoding := "utf-8", xml_declaration := true }

/-- The deploy staging area: directories created so far and files
written so far (in write order, keyed by path under `deployRoot`). -/
structure DeployFS (Tree : Type) where
  dirs : List (List Nat)
  files : List (List Nat × SerializedXml Tree)

def emptyDeployFS {Tree : Type} : DeployFS Tree := { dirs := [], files := [] }

/-- `if not parent_dir.exists(): parent_dir.mkdir()` -/
def mkdirIfAbsent {Tree : Type} (fs : DeployFS Tree) (d : List Nat) : DeployFS Tree :=
  if d ∈ fs.dirs then fs else { fs with dirs := fs.dirs ++ [d] }

def writeFile {Tree : Type} (fs : DeployFS Tree) (path : List Nat)
    (doc : SerializedXml Tree) : DeployFS Tree :=
  { fs with files := fs.files ++ [(path, doc)] }

/-- The requested-name wildcard `"*"`. -/
def starName : List Nat := [42]

/-- `f"{api_name}.{extension}"` -/
def fileName (n ext : List Nat) : List Nat := n ++ 46 :: ext

/-- `directory / f"{api_name}.{extension}"` relative to the retrieve root. -/
def filePath (dir n ext : List Nat) : List Nat := dir ++ 47 :: (n ++ 46 :: ext)

/-- Index of the last occurrence of byte `b` in `l` (`str.rfind`). -/
def lastIdxOf (b : Nat) : List Nat → Option Nat
  | [] => none
  | x :: rest =>
    match lastIdxOf b rest with
    | some j => some (j + 1)
    | none => if x = b then some 0 else none

/-- `pathlib.PurePath.suffix`: the part of the name from the last dot on,
empty when the last dot is leading or trailing. -/
def pathSuffix (f : List Nat) : List Nat :=
  match lastIdxOf 46 f with
  | some i => if 0 < i ∧ i < f.length - 1 then f.drop i else []
  | none => []

/-- `pathlib.PurePath.stem`: the name up to the last dot, or the whole
name when there is no (counted) dot. -/
def pathStem (f : List Nat) : List Nat :=
  match lastIdxOf 46 f with
  | some i => if 0 < i ∧ i < f.length - 1 then f.take i else f
  | none => f

/-- Wildcard expansion in `_transform`: when `"*"` is requested, remove it
and union in the stems of the files of `retrieve_dir/directory` whose
suffix is `.extension`.  `iterdir` on an absent directory raises
`FileNotFoundError`, modelled as the error branch. -/
def expandWildcard {Tree : Type} (rfs : RetrieveFS Tree) (directory extension : List Nat)
    (api_names : List (List Nat)) : Except TransformError (List (List Nat)) :=
  if starName ∈ api_names then
    match rfs.listing directory with
    | none => Except.error (TransformError.fileNotFound directory)
    | some files =>
      let kept := api_names.erase starName
      let stems := (files.filter (fun f => pathSuffix f == 46 :: extension)).map pathStem
      Except.ok (kept ++ stems.filter (fun s => decide (s ∉ kept)))
  else Except.ok api_names

/-- The per-name loop of `_transform`.  The list argument is the iteration
order of the (unordered) Python set `self.api_names`; `removed` accumulates
`removed_api_names`.  Files already written stay in the returned `DeployFS`
even when a later name fails. -/
def processNames {Tree : Type} (directory extension : List Nat)
    (transformEntity : Tree → List Nat → Option Tree) (rfs : RetrieveFS Tree) :
    List (List Nat) → DeployFS Tree → List (List Nat) →
    DeployFS Tree × Except TransformError (List (List Nat))
  | [], fs, removed => (fs, Except.ok removed)
  | n :: rest, fs, removed =>
    match rfs.content (filePath directory n extension) with
    | none => (fs, Except.error (TransformError.cannotFind (filePath directory n extension)))
    | some (FileContent.malformed msg) =>
      (fs, Except.error (TransformError.parseFailure (filePath directory n extension) msg))
    | some (FileContent.xml tree) =>
      match transformEntity tree (unquoteB n) with
      | some transformed =>
        processNames directory extension transformEntity rfs rest
          (writeFile (mkdirIfAbsent fs directory) (filePath directory n extension)
            (serializeXml transformed)) removed
      | none => processNames directory extension transformEntity rfs rest fs (removed ++ [n])

/-- `MetadataSingleEntityTransformTask._transform`: resolve the entity,
expand the wildcard, process every name, and shrink the membership by the
removed names (`self.api_names = self.api_names - removed_api_names`). -/
def transformAll {Tree : Type} (metadata_map : List (List Nat × List Subentry))
    (entity : String) (transformEntity : Tree → List Nat → Option Tree)
    (rfs : RetrieveFS Tree) (api_names : List (List Nat)) :
    DeployFS Tree × Except TransformError (List (List Nat)) :=
  match resolveEntity metadata_map entity with
  | Except.error e => (emptyDeployFS, Except.error e)
  | Except.ok (directory, extension) =>
    match expandWildcard rfs directory extension api_names with
    | Except.error e => (emptyDeployFS, Except.error e)
    | Except.ok names =>
      match processNames directory extension transformEntity rfs names emptyDeployFS [] with
      | (fs, Except.ok removed) =>
        (fs, Except.ok (names.filter (fun n => decide (n ∉ removed))))
      | (fs, Except.error e) => (fs, Except.error e)

/-! ## Manifest generator (`BaseMetadataTransformTask._get_types_package_xml` /
`_get_package_xml_content`).  Entity sets are modelled as lists of names in
the set's iteration order; `sorted(api_names)` is `sortStrings`. -/

def sortStrings (l : List String) : List String :=
  List.insertionSort (fun a b => a ≤ b) l

def membersXml (api_names : List String) : String :=
  String.intercalate "\n"
    ((sortStrings api_names).map
      (fun api_name => "        <members>" ++ api_name ++ "</members>"))

def typesBlock (name members : String) : String :=
  "    <types>\n" ++ members ++ "\n        <name>" ++ name ++ "</name>\n    </types>\n"

def getTypesPackageXml (entities : List (String × List String)) : String :=
  entities.foldl (fun types e => types ++ typesBlock e.1 (membersXml e.2)) ""

def getPackageXmlContent (api_version : String)
    (entities : List (String × List String)) : String :=
  "<?xml version=\"1.0\" encoding=\"UTF-8\"?>\n<Package xmlns=\"http://soap.sforce.com/2006/04/metadata\">\n"
    ++ getTypesPackageXml entities
    ++ "    <version>" ++ api_version ++ "</version>\n</Package>\n"

/-! ## `get_new_tag_index`.  lxml elements compare by identity, modelled by a
numeric id `eid` carried by each element; a well-formed tree has distinct ids. -/

def MD : String := "\x7bhttp://soap.sforce.com/2006/04/metadata\x7d"

inductive XElem : Type where
  | node (eid : Nat) (tag : String) (children : List XElem)

def XElem.eid : XElem → Nat
  | .node i _ _ => i

def XElem.tag : XElem → String
  | .node _ t _ => t

def XElem.children : XElem → List XElem
  | .node _ _ c => c

/-- `tree.findall(f".//{namespace}{tag}")` over a list of root children:
every proper descendant carrying the qualified tag, in document order. -/
def findallList (tag : String) : List XElem → List XElem
  | [] => []
  | XElem.node i t cs :: rest =>
    (if t == tag then [XElem.node i t cs] else [])
      ++ findallList tag cs ++ findallList tag rest

/-- `list(tree.getroot()).index(elem)` with lxml identity equality:
first position of the child with the given id, `none` when `list.index`
raises `ValueError`. -/
def indexOfEid : List XElem → Nat → Option Nat
  | [], _ => none
  | c :: rest, t =>
    if c.eid = t then some 0 else (indexOfEid rest t).map (· + 1)

/-- `get_new_tag_index(tree, tag, namespace=MD)`: `none` models the
`ValueError` raised by `list.index` when the last matching element is not
itself a direct child of the root. -/
def get_new_tag_index (root : XElem) (tag : String) (ns : String := MD) :
    Option Nat :=
  let tags := findallList (ns ++ tag) root.children
  match tags.getLast? with
  | some last =>
    match indexOfEid root.children last.eid with
    | some j => some (j + 1)
    | none => none
  | none => some root.children.length

/-! ## Pipeline orchestrator (`BaseMetadataETLTask._run_task`).  Each step's
outcome is a parameter; the event trace records what ran.  The
`tempfile.TemporaryDirectory` context manager removes the scratch directory
on both the normal and the exceptional exit of the `with` block. -/

inductive RunEvent where
  | mkTempDir
  | createRetrieveDir
  | createDeployDir
  | retrieveStep
  | transformStep
  | writeManifest
  | deployStep
  | postDeployStep
  | rmTempDir
deriving DecidableEq

/-- Run one step after `acc`: the step executes (appending its event) only
when no earlier step raised; an error short-circuits the rest of the body. -/
def andThenStep {E : Type} (acc : List RunEvent × Except E Unit) (ev : RunEvent)
    (out : Except E Unit) : List RunEvent × Except E Unit :=
  match acc with
  | (tr, Except.ok _) => (tr ++ [ev], out)
  | (tr, Except.error e) => (tr, Except.error e)

/-- The body of the `with tempfile.TemporaryDirectory()` block:
`_create_directories`, then `_retrieve` when the task retrieves, then
`_transform`, then `_deploy` (which first writes `package.xml`) and
`_post_deploy` when the task deploys. -/
def runBody {E : Type} (retrieve deploy : Bool)
    (retrieveOut transformOut deployOut postDeployOut : Except E Unit) :
    List RunEvent × Except E Unit :=
  let s0 : List RunEvent × Except E Unit :=
    ((if retrieve then [RunEvent.createRetrieveDir] else [])
      ++ (if deploy then [RunEvent.createDeployDir] else []), Except.ok ())
  let s1 := if retrieve then andThenStep s0 RunEvent.retrieveStep retrieveOut else s0
  let s2 := andThenStep s1 RunEvent.transformStep transformOut
  let s3 :=
    if deploy then
      andThenStep (andThenStep s2 RunEvent.writeManifest (Except.ok ()))
        RunEvent.deployStep deployOut
    else s2
  if deploy then andThenStep s3 RunEvent.postDeployStep postDeployOut else s3

/-- `_run_task`: the whole staged sequence inside the temporary-directory
context manager, whose cleanup runs on success and on any raised error. -/
def runTask {E : Type} (retrieve deploy : Bool)
    (retrieveOut transformOut deployOut postDeployOut : Except E Unit) :
    List RunEvent × Except E Unit :=
  (RunEvent.mkTempDir ::
      (runBody retrieve deploy retrieveOut transformOut deployOut postDeployOut).1
      ++ [RunEvent.rmTempDir],
    (runBody retrieve deploy retrieveOut transformOut deployOut postDeployOut).2)

/-! ## Helper lemmas: escaping round trip -/

theorem isSafeByte_ne_37 {b : Nat} (h : isSafeByte b = true) : b ≠ 37 := by
  intro e
  subst e
  exact absurd h (by decide)

theorem unquoteB_cons_ne {b : Nat} (l : List Nat) (hb : b ≠ 37) :
    unquoteB (b :: l) = b :: unquoteB l := by
  match l with
  | [] => simp [unquoteB]
  | [x] => simp [unquoteB]
  | x :: y :: t => simp [unquoteB, hb]

theorem unquoteB_hex (h l : Nat) (rest : List Nat) (hh : isHexDigitByte h = true)
    (hl : isHexDigitByte l = true) :
    unquoteB (37 :: h :: l :: rest) = (hexVal h * 16 + hexVal l) :: unquoteB rest := by
  simp [unquoteB, hh, hl]

theorem isHexDigitByte_hexDigit {n : Nat} (h : n < 16) :
    isHexDigitByte (hexDigit n) = true := by
  by_cases hn : n < 10
  · simp only [hexDigit, isHexDigitByte, if_pos hn, decide_eq_true_eq]
    omega
  · simp only [hexDigit, isHexDigitByte, if_neg hn, decide_eq_true_eq]
    omega

theorem hexVal_hexDigit {n : Nat} (h : n < 16) : hexVal (hexDigit n) = n := by
  by_cases hn : n < 10
  · simp only [hexDigit, hexVal, if_pos hn]
    rw [if_pos (by omega)]
    omega
  · simp only [hexDigit, hexVal, if_neg hn]
    rw [if_neg (by omega), if_pos (by omega)]
    omega

theorem unquoteB_quoteB (s : List Nat) (h : ∀ b ∈ s, b < 256) :
    unquoteB (quoteB s) = s := by
  induction s with
  | nil => rfl
  | cons b t ih =>
    have hb : b < 256 := h b (List.mem_cons_self b t)
    have ht : ∀ x ∈ t, x < 256 := fun x hx => h x (List.mem_cons_of_mem b hx)
    have hq : quoteB (b :: t) =
        (if isSafeByte b then [b]
          else [37, hexDigit (b / 16), hexDigit (b % 16)]) ++ quoteB t := by
      simp [quoteB]
    by_cases hs : isSafeByte b = true
    · rw [hq, if_pos hs, List.singleton_append,
        unquoteB_cons_ne _ (isSafeByte_ne_37 hs), ih ht]
    · have h16 : b / 16 < 16 := by omega
      have hm : b % 16 < 16 := by omega
      rw [hq, if_neg hs]
      show unquoteB (37 :: hexDigit (b / 16) :: hexDigit (b % 16) :: quoteB t) = b :: t
      rw [unquoteB_hex _ _ _ (isHexDigitByte_hexDigit h16) (isHexDigitByte_hexDigit hm),
        hexVal_hexDigit h16, hexVal_hexDigit hm, ih ht]
      congr 1
      omega

/-! ## Helper lemmas: the per-name processing loop -/

/-- The files written while processing `names` when every name parses:
one file per name whose transform returns a document, in processing order. -/
def writesOf {Tree : Type} (dir ext : List Nat) (tf : Tree → List Nat → Option Tree)
    (getTree : List Nat → Tree) (names : List (List Nat)) :
    List (List Nat × SerializedXml Tree) :=
  names.flatMap fun n =>
    match tf (getTree n) (unquoteB n) with
    | some out => [(filePath dir n ext, serializeXml out)]
    | none => []

/-- The names whose transform returns the suppression value `None`. -/
def suppressedOf {Tree : Type} (tf : Tree → List Nat → Option Tree)
    (getTree : List Nat → Tree) (names : List (List Nat)) : List (List Nat) :=
  names.filter fun n => (tf (getTree n) (unquoteB n)).isNone

def addDir (dirs : List (List Nat)) (d : List Nat) : List (List Nat) :=
  if d ∈ dirs then dirs else dirs ++ [d]

theorem addDir_addDir (dirs : List (List Nat)) (d : List Nat) :
    addDir (addDir dirs d) d = addDir dirs d := by
  by_cases h : d ∈ dirs
  · simp [addDir, h]
  · simp [addDir, h]

theorem writeFile_mkdirIfAbsent_dirs {Tree : Type} (fs : DeployFS Tree) (d p : List Nat)
    (doc : SerializedXml Tree) :
    (writeFile (mkdirIfAbsent fs d) p doc).dirs = addDir fs.dirs d := by
  rw [mkdirIfAbsent, addDir]
  split <;> rfl

theorem writeFile_mkdirIfAbsent_files {Tree : Type} (fs : DeployFS Tree) (d p : List Nat)
    (doc : SerializedXml Tree) :
    (writeFile (mkdirIfAbsent fs d) p doc).files = fs.files ++ [(p, doc)] := by
  rw [mkdirIfAbsent]
  split <;> rfl

theorem processNames_clean {Tree : Type} (dir ext : List Nat)
    (tf : Tree → List Nat → Option Tree) (rfs : RetrieveFS Tree)
    (getTree : List Nat → Tree) (l₁ l₂ : List (List Nat))
    (hc : ∀ n ∈ l₁, rfs.content (filePath dir n ext) = some (FileContent.xml (getTree n)))
    (fs : DeployFS Tree) (removed : List (List Nat)) :
    processNames dir ext tf rfs (l₁ ++ l₂) fs removed =
      processNames dir ext tf rfs l₂
        ⟨if l₁.all (fun n => (tf (getTree n) (unquoteB n)).isNone) then fs.dirs
          else addDir fs.dirs dir,
         fs.files ++ writesOf dir ext tf getTree l₁⟩
        (removed ++ suppressedOf tf getTree l₁) := by
  induction l₁ generalizing fs removed with
  | nil => simp [writesOf, suppressedOf]
  | cons n rest ih =>
    have hcn := hc n (List.mem_cons_self n rest)
    have hcr : ∀ m ∈ rest, rfs.content (filePath dir m ext) =
        some (FileContent.xml (getTree m)) :=
      fun m hm => hc m (List.mem_cons_of_mem n hm)
    cases htf : tf (getTree n) (unquoteB n) with
    | some out =>
      have hall : ((n :: rest).all fun m => (tf (getTree m) (unquoteB m)).isNone) = false := by
        simp [List.all_cons, htf]
      have hW : writesOf dir ext tf getTree (n :: rest) =
          (filePath dir n ext, serializeXml out) :: writesOf dir ext tf getTree rest := by
        simp [writesOf, htf]
      have hS : suppressedOf tf getTree (n :: rest) = suppressedOf tf getTree rest := by
        simp [suppressedOf, List.filter_cons, htf]
      rw [List.cons_append]
      simp only [processNames, hcn, htf]
      rw [ih hcr, hall, hW, hS, writeFile_mkdirIfAbsent_dirs, writeFile_mkdirIfAbsent_files,
        addDir_addDir]
      simp [List.append_assoc]
    | none =>
      have hall : ((n :: rest).all fun m => (tf (getTree m) (unquoteB m)).isNone) =
          (rest.all fun m => (tf (getTree m) (unquoteB m)).isNone) := by
        simp [List.all_cons, htf]
      have hW : writesOf dir ext tf getTree (n :: rest) =
          writesOf dir ext tf getTree rest := by
        simp [writesOf, htf]
      have hS : suppressedOf tf getTree (n :: rest) =
          n :: suppressedOf tf getTree rest := by
        simp [suppressedOf, List.filter_cons, htf]
      rw [List.cons_append]
      simp only [processNames, hcn, htf]
      rw [ih hcr, hall, hW, hS]
      simp [List.append_assoc]

theorem processNames_run {Tree : Type} (dir ext : List Nat)
    (tf : Tree → List Nat → Option Tree) (rfs : RetrieveFS Tree)
    (getTree : List Nat → Tree) (names : List (List Nat))
    (hc : ∀ n ∈ names, rfs.content (filePath dir n ext) = some (FileContent.xml (getTree n))) :
    processNames dir ext tf rfs names emptyDeployFS [] =
      (⟨if names.all (fun n => (tf (getTree n) (unquoteB n)).isNone) then []
          else [dir],
        writesOf dir ext tf getTree names⟩,
       Except.ok (suppressedOf tf getTree names)) := by
  have h := processNames_clean dir ext tf rfs getTree names [] hc emptyDeployFS []
  rw [List.append_nil] at h
  rw [h, processNames]
  simp [emptyDeployFS, addDir]

theorem transformAll_clean {Tree : Type} (metadata_map : List (List Nat × List Subentry))
    (entity : String) (tf : Tree → List Nat → Option Tree) (rfs : RetrieveFS Tree)
    (getTree : List Nat → Tree) (dir ext : List Nat) (api_names : List (List Nat))
    (hres : resolveEntity metadata_map entity = Except.ok (dir, ext))
    (hstar : starName ∉ api_names)
    (hc : ∀ n ∈ api_names, rfs.content (filePath dir n ext) = some (FileContent.xml (getTree n))) :
    transformAll metadata_map entity tf rfs api_names =
      (⟨if api_names.all (fun n => (tf (getTree n) (unquoteB n)).isNone) then []
          else [dir],
        writesOf dir ext tf getTree api_names⟩,
       Except.ok (api_names.filter
         (fun n => decide (n ∉ suppressedOf tf getTree api_names)))) := by
  rw [transformAll, hres]
  show (match expandWildcard rfs dir ext api_names with
    | Except.error e => (emptyDeployFS, Except.error e)
    | Except.ok names =>
      match processNames dir ext tf rfs names emptyDeployFS [] with
      | (fs, Except.ok removed) =>
        (fs, Except.ok (names.filter (fun n => decide (n ∉ removed))))
      | (fs, Except.error e) => (fs, Except.error e)) = _
  rw [expandWildcard, if_neg hstar]
  show (match processNames dir ext tf rfs api_names emptyDeployFS [] with
    | (fs, Except.ok removed) =>
      (fs, Except.ok (api_names.filter (fun n => decide (n ∉ removed))))
    | (fs, Except.error e) => (fs, Except.error e)) = _
  rw [processNames_run dir ext tf rfs getTree api_names hc]

theorem filePath_inj {dir ext m n : List Nat} (h : filePath dir m ext = filePath dir n ext) :
    m = n := by
  unfold filePath at h
  have h1 : (47 : Nat) :: (m ++ 46 :: ext) = 47 :: (n ++ 46 :: ext) :=
    List.append_cancel_left h
  have h2 : m ++ 46 :: ext = n ++ 46 :: ext := by
    injection h1
  exact List.append_cancel_right h2

theorem mem_writesOf {Tree : Type} {dir ext : List Nat} {tf : Tree → List Nat → Option Tree}
    {getTree : List Nat → Tree} {names : List (List Nat)} {n : List Nat} {out : Tree}
    (hn : n ∈ names) (hout : tf (getTree n) (unquoteB n) = some out) :
    (filePath dir n ext, serializeXml out) ∈ writesOf dir ext tf getTree names := by
  induction names with
  | nil => cases hn
  | cons m rest ih =>
    rw [writesOf, List.flatMap_cons]
    rcases List.mem_cons.mp hn with he | hr
    · subst he
      rw [hout]
      exact List.mem_append_left _ (List.mem_singleton.mpr rfl)
    · exact List.mem_append_right _ (ih hr)

theorem mem_writesOf_map_fst {Tree : Type} {dir ext : List Nat}
    {tf : Tree → List Nat → Option Tree} {getTree : List Nat → Tree}
    {names : List (List Nat)} {p : List Nat}
    (hp : p ∈ (writesOf dir ext tf getTree names).map Prod.fst) :
    ∃ n ∈ names, (tf (getTree n) (unquoteB n)).isSome ∧ p = filePath dir n ext := by
  induction names with
  | nil => cases hp
  | cons m rest ih =>
    rw [writesOf, List.flatMap_cons, List.map_append] at hp
    rcases List.mem_append.mp hp with h1 | h2
    · refine ⟨m, List.mem_cons_self m rest, ?_⟩
      cases htf : tf (getTree m) (unquoteB m) with
      | some out =>
        rw [htf] at h1
        simp at h1
        exact ⟨rfl, h1⟩
      | none =>
        rw [htf] at h1
        cases h1
    · obtain ⟨n, hn, hs, hpe⟩ := ih h2
      exact ⟨n, List.mem_cons_of_mem m hn, hs, hpe⟩

theorem mem_suppressedOf {Tree : Type} {tf : Tree → List Nat → Option Tree}
    {getTree : List Nat → Tree} {names : List (List Nat)} {m : List Nat} :
    m ∈ suppressedOf tf getTree names ↔
      m ∈ names ∧ (tf (getTree m) (unquoteB m)).isNone := by
  unfold suppressedOf
  rw [List.mem_filter]

theorem writesOf_cons_some {Tree : Type} {dir ext : List Nat}
    {tf : Tree → List Nat → Option Tree} {getTree : List Nat → Tree}
    {m : List Nat} {rest : List (List Nat)} {out : Tree}
    (htf : tf (getTree m) (unquoteB m) = some out) :
    writesOf dir ext tf getTree (m :: rest) =
      (filePath dir m ext, serializeXml out) :: writesOf dir ext tf getTree rest := by
  simp [writesOf, htf]

theorem writesOf_cons_none {Tree : Type} {dir ext : List Nat}
    {tf : Tree → List Nat → Option Tree} {getTree : List Nat → Tree}
    {m : List Nat} {rest : List (List Nat)}
    (htf : tf (getTree m) (unquoteB m) = none) :
    writesOf dir ext tf getTree (m :: rest) = writesOf dir ext tf getTree rest := by
  simp [writesOf, htf]

theorem writesOf_map_fst {Tree : Type} (dir ext : List Nat)
    (tf : Tree → List Nat → Option Tree) (getTree : List Nat → Tree)
    (names : List (List Nat)) :
    (writesOf dir ext tf getTree names).map Prod.fst =
      (names.filter (fun n => (tf (getTree n) (unquoteB n)).isSome)).map
        (fun n => filePath dir n ext) := by
  induction names with
  | nil => rfl
  | cons m rest ih =>
    cases htf : tf (getTree m) (unquoteB m) with
    | some out => simp [writesOf_cons_some htf, List.filter_cons, htf, ih]
    | none => simp [writesOf_cons_none htf, List.filter_cons, htf, ih]

/-! ## Claim theorems -/

/-- C1: over an already-expanded name set in which every name has a parseable
source file, the transform run succeeds; every instance whose callback returns
a document is serialized with encoding utf-8 and an XML declaration to
`deployRoot/directory/n.extension`, and the output directory is created at
most once; every suppressed instance has no file written; and the surviving
membership equals the expanded requested set minus exactly the suppressed
names. -/
theorem spec_C1 {Tree : Type} (metadata_map : List (List Nat × List Subentry))
    (entity : String) (tf : Tree → List Nat → Option Tree) (rfs : RetrieveFS Tree)
    (getTree : List Nat → Tree) (dir ext : List Nat) (api_names : List (List Nat))
    (hres : resolveEntity metadata_map entity = Except.ok (dir, ext))
    (hstar : starName ∉ api_names)
    (hc : ∀ n ∈ api_names,
      rfs.content (filePath dir n ext) = some (FileContent.xml (getTree n))) :
    ∃ fs survivors,
      transformAll metadata_map entity tf rfs api_names = (fs, Except.ok survivors) ∧
      (∀ n ∈ api_names, ∀ out, tf (getTree n) (unquoteB n) = some out →
        (filePath dir n ext,
          { doc := out, encoding := "utf-8", xml_declaration := true }) ∈ fs.files) ∧
      (∀ n ∈ api_names, tf (getTree n) (unquoteB n) = none →
        filePath dir n ext ∉ fs.files.map Prod.fst) ∧
      fs.dirs = (if api_names.all (fun n => (tf (getTree n) (unquoteB n)).isNone)
        then [] else [dir]) ∧
      (∀ m, m ∈ survivors ↔ m ∈ api_names ∧ tf (getTree m) (unquoteB m) ≠ none) := by
  refine ⟨_, _,
    transformAll_clean metadata_map entity tf rfs getTree dir ext api_names hres hstar hc,
    ?_, ?_, rfl, ?_⟩
  · intro n hn out hout
    exact mem_writesOf hn hout
  · intro n hn htf hmem
    obtain ⟨n', hn', hsome, hpe⟩ := mem_writesOf_map_fst hmem
    have : n = n' := filePath_inj hpe
    subst this
    rw [htf] at hsome
    cases hsome
  · intro m
    simp only [List.mem_filter, decide_eq_true_eq, mem_suppressedOf,
      Option.isNone_iff_eq_none]
    constructor
    · rintro ⟨hm, hns⟩
      exact ⟨hm, fun he => hns ⟨hm, he⟩⟩
    · rintro ⟨hm, hne⟩
      exact ⟨hm, fun h => hne h.2⟩

/-! Concrete scenario for witnesses: entity type `Layout` stored as
`layouts/<name>.layout`, with `Tree := Nat`. -/

def layoutsDir : List Nat := strBytes "layouts"

def layoutExt : List Nat := strBytes "layout"

def mmLayout : List (List Nat × List Subentry) :=
  [(layoutsDir, [Subentry.mk "Layout" "MetadataFilenameParser" layoutExt])]

def nameX : List Nat := strBytes "X"

def nameY : List Nat := strBytes "Y"

/-- Retrieve area holding `layouts/X.layout` and `layouts/Y.layout`. -/
def rfsXY : RetrieveFS Nat :=
  { listing := fun d =>
      if d = layoutsDir then some [fileName nameX layoutExt, fileName nameY layoutExt]
      else none,
    content := fun p =>
      if p = filePath layoutsDir nameX layoutExt ∨ p = filePath layoutsDir nameY layoutExt
      then some (FileContent.xml 0) else none }

/-- A transform suppressing `X` and keeping everything else unchanged. -/
def tfSuppressX (t : Nat) (n : List Nat) : Option Nat :=
  if n = nameX then none else some t

theorem spec_C1_witness :
    ∃ fs survivors,
      transformAll mmLayout "Layout" tfSuppressX rfsXY [nameX, nameY] =
        (fs, Except.ok survivors) ∧
      (∀ n ∈ [nameX, nameY], ∀ out, tfSuppressX ((fun _ => 0) n) (unquoteB n) = some out →
        (filePath layoutsDir n layoutExt,
          { doc := out, encoding := "utf-8", xml_declaration := true }) ∈ fs.files) ∧
      (∀ n ∈ [nameX, nameY], tfSuppressX ((fun _ => 0) n) (unquoteB n) = none →
        filePath layoutsDir n layoutExt ∉ fs.files.map Prod.fst) ∧
      fs.dirs = (if [nameX, nameY].all
          (fun n => (tfSuppressX ((fun _ => 0) n) (unquoteB n)).isNone)
        then [] else [layoutsDir]) ∧
      (∀ m, m ∈ survivors ↔
        m ∈ [nameX, nameY] ∧ tfSuppressX ((fun _ => 0) m) (unquoteB m) ≠ none) := by
  refine spec_C1 mmLayout "Layout" tfSuppressX rfsXY (fun _ => 0) layoutsDir layoutExt
    [nameX, nameY] (by decide) (by decide) ?_
  intro n hn
  rcases List.mem_cons.mp hn with h | h
  · subst h; rfl
  · rcases List.mem_cons.mp h with h | h
    · subst h; rfl
    · cases h

/-- C2 counterexample: with the wildcard requested and no retrieve directory
for the entity (nothing was retrieved), `iterdir` fails, so the engine raises
instead of producing the empty set the claim promises. -/
def rfsNone : RetrieveFS Nat :=
  { listing := fun _ => none, content := fun _ => none }

theorem spec_C2_cx :
    (transformAll mmLayout "Layout" (fun (t : Nat) _ => some t) rfsNone [starName]).2 =
      Except.error (TransformError.fileNotFound layoutsDir) := by
  decide

/-- C2 (amended): when `"*"` is requested and the retrieve directory exists,
the marker is removed and replaced by the stems of the files whose suffix
matches; with no matching files the result is the empty set and no error.
When the retrieve directory itself is missing, the expansion fails with a
file-not-found error instead. -/
theorem spec_C2_amended {Tree : Type} (rfs : RetrieveFS Tree)
    (directory extension : List Nat) (api_names files : List (List Nat))
    (hstar : starName ∈ api_names) (hnd : api_names.Nodup)
    (hlist : rfs.listing directory = some files) :
    ∃ expanded, expandWildcard rfs directory extension api_names = Except.ok expanded ∧
      (∀ m, m ∈ expanded ↔ ((m ∈ api_names ∧ m ≠ starName) ∨
        ∃ f ∈ files, pathSuffix f = 46 :: extension ∧ pathStem f = m)) ∧
      (api_names = [starName] →
        (∀ f ∈ files, pathSuffix f ≠ 46 :: extension) → expanded = []) := by
  refine ⟨(api_names.erase starName) ++
    (((files.filter (fun f => pathSuffix f == 46 :: extension)).map pathStem).filter
      (fun s => decide (s ∉ api_names.erase starName))), ?_, ?_, ?_⟩
  · simp only [expandWildcard, if_pos hstar, hlist]
  · intro m
    have hkept : m ∈ api_names.erase starName ↔ m ≠ starName ∧ m ∈ api_names :=
      hnd.mem_erase_iff
    have hstems : m ∈ (files.filter (fun f => pathSuffix f == 46 :: extension)).map pathStem
        ↔ ∃ f ∈ files, pathSuffix f = 46 :: extension ∧ pathStem f = m := by
      simp [List.mem_map, List.mem_filter]
      constructor
      · rintro ⟨f, ⟨hf, hs⟩, he⟩
        exact ⟨f, hf, hs, he⟩
      · rintro ⟨f, hf, hs, he⟩
        exact ⟨f, ⟨hf, hs⟩, he⟩
    rw [List.mem_append, List.mem_filter]
    constructor
    · rintro (hk | ⟨hst, _⟩)
      · exact Or.inl ⟨(hkept.mp hk).2, (hkept.mp hk).1⟩
      · exact Or.inr (hstems.mp hst)
    · rintro (⟨hm, hne⟩ | hst)
      · exact Or.inl (hkept.mpr ⟨hne, hm⟩)
      · by_cases hk : m ∈ api_names.erase starName
        · exact Or.inl hk
        · exact Or.inr ⟨hstems.mpr hst, by simpa using hk⟩
  · intro hnames hnone
    subst hnames
    have hf : files.filter (fun f => pathSuffix f == 46 :: extension) = [] := by
      rw [List.filter_eq_nil_iff]
      intro f hf
      simpa using hnone f hf
    simp [hf]

theorem spec_C2_witness :
    ∃ expanded, expandWildcard rfsXY layoutsDir layoutExt [starName] = Except.ok expanded ∧
      (∀ m, m ∈ expanded ↔ ((m ∈ [starName] ∧ m ≠ starName) ∨
        ∃ f ∈ [fileName nameX layoutExt, fileName nameY layoutExt],
          pathSuffix f = 46 :: layoutExt ∧ pathStem f = m)) ∧
      ([starName] = [starName] →
        (∀ f ∈ [fileName nameX layoutExt, fileName nameY layoutExt],
          pathSuffix f ≠ 46 :: layoutExt) → expanded = []) :=
  spec_C2_amended rfsXY layoutsDir layoutExt [starName]
    [fileName nameX layoutExt, fileName nameY layoutExt]
    (by decide) (by decide) (by decide)

/-- C3: unescaping the path-safe form recovers the user-facing form exactly
(percent-escaping round trip over UTF-8 bytes), and one processing step looks
the file up under the path-safe name while handing the transform callback the
unescaped (user-facing) name. -/
theorem spec_C3 :
    (∀ s : List Nat, (∀ b ∈ s, b < 256) → unquoteB (quoteB s) = s) ∧
    (∀ (Tree : Type) (dir ext : List Nat) (tf : Tree → List Nat → Option Tree)
      (rfs : RetrieveFS Tree) (t : Tree) (n : List Nat) (fs : DeployFS Tree)
      (removed : List (List Nat)),
      rfs.content (filePath dir n ext) = some (FileContent.xml t) →
      processNames dir ext tf rfs [n] fs removed =
        match tf t (unquoteB n) with
        | some out => (writeFile (mkdirIfAbsent fs dir) (filePath dir n ext)
            (serializeXml out), Except.ok removed)
        | none => (fs, Except.ok (removed ++ [n]))) := by
  constructor
  · exact unquoteB_quoteB
  · intro Tree dir ext tf rfs t n fs removed h
    cases htf : tf t (unquoteB n) with
    | some out => simp [processNames, h, htf]
    | none => simp [processNames, h, htf]

def fooTest : List Nat := strBytes "Foo (Test)"

def fooTestQ : List Nat := quoteB fooTest

def rfsFoo : RetrieveFS Nat :=
  { listing := fun _ => none,
    content := fun p =>
      if p = filePath layoutsDir fooTestQ layoutExt then some (FileContent.xml 0)
      else none }

theorem spec_C3_witness :
    unquoteB (quoteB fooTest) = fooTest ∧
    processNames layoutsDir layoutExt (fun (t : Nat) _ => some t) rfsFoo [fooTestQ]
        emptyDeployFS [] =
      match (fun (t : Nat) _ => some t) 0 (unquoteB fooTestQ) with
      | some out => (writeFile (mkdirIfAbsent emptyDeployFS layoutsDir)
          (filePath layoutsDir fooTestQ layoutExt) (serializeXml out), Except.ok [])
      | none => (emptyDeployFS, Except.ok ([] ++ [fooTestQ])) :=
  ⟨spec_C3.1 fooTest (by decide),
    spec_C3.2 Nat layoutsDir layoutExt (fun t _ => some t) rfsFoo 0 fooTestQ
      emptyDeployFS [] (by decide)⟩

/-- C4 counterexample: a run whose set iteration order is `[Y, X]` processes
and writes `Y` first, not the sorted order `[X, Y]` the claim asserts. -/
theorem spec_C4_cx :
    ((transformAll mmLayout "Layout" (fun (t : Nat) _ => some t) rfsXY
        [nameY, nameX]).1.files.map Prod.fst) =
      [filePath layoutsDir nameY layoutExt, filePath layoutsDir nameX layoutExt] ∧
    [filePath layoutsDir nameY layoutExt, filePath layoutsDir nameX layoutExt] ≠
      [filePath layoutsDir nameX layoutExt, filePath layoutsDir nameY layoutExt] := by
  decide

/-- C4 (amended): instances are processed in the iteration order of the
(unordered) api-name set, not in a sorted order: the sequence of written
files follows the given iteration order exactly, so the loop is
deterministic only relative to that order. -/
theorem spec_C4_amended {Tree : Type} (metadata_map : List (List Nat × List Subentry))
    (entity : String) (tf : Tree → List Nat → Option Tree) (rfs : RetrieveFS Tree)
    (getTree : List Nat → Tree) (dir ext : List Nat) (api_names : List (List Nat))
    (hres : resolveEntity metadata_map entity = Except.ok (dir, ext))
    (hstar : starName ∉ api_names)
    (hc : ∀ n ∈ api_names,
      rfs.content (filePath dir n ext) = some (FileContent.xml (getTree n))) :
    (transformAll metadata_map entity tf rfs api_names).1.files.map Prod.fst =
      (api_names.filter (fun n => (tf (getTree n) (unquoteB n)).isSome)).map
        (fun n => filePath dir n ext) := by
  rw [transformAll_clean metadata_map entity tf rfs getTree dir ext api_names hres hstar hc]
  exact writesOf_map_fst dir ext tf getTree api_names

theorem spec_C4_witness :
    (transformAll mmLayout "Layout" tfSuppressX rfsXY [nameY, nameX]).1.files.map Prod.fst =
      ([nameY, nameX].filter
        (fun n => (tfSuppressX ((fun _ => (0 : Nat)) n) (unquoteB n)).isSome)).map
      (fun n => filePath layoutsDir n layoutExt) := by
  refine spec_C4_amended mmLayout "Layout" tfSuppressX rfsXY (fun _ => 0) layoutsDir
    layoutExt [nameY, nameX] (by decide) (by decide) ?_
  intro n hn
  rcases List.mem_cons.mp hn with h | h
  · subst h; rfl
  · rcases List.mem_cons.mp h with h | h
    · subst h; rfl
    · cases h

/-! ## C5: manifest generator -/

theorem sortStrings_sorted (l : List String) :
    List.Sorted (fun a b => a ≤ b) (sortStrings l) :=
  List.sorted_insertionSort _ l

theorem sortStrings_perm (l : List String) : (sortStrings l).Perm l :=
  List.perm_insertionSort _ l

theorem sortStrings_eq_of_perm {l₁ l₂ : List String} (h : l₁.Perm l₂) :
    sortStrings l₁ = sortStrings l₂ :=
  List.eq_of_perm_of_sorted
    ((sortStrings_perm l₁).trans (h.trans (sortStrings_perm l₂).symm))
    (sortStrings_sorted l₁) (sortStrings_sorted l₂)

theorem membersXml_eq_of_perm {l₁ l₂ : List String} (h : l₁.Perm l₂) :
    membersXml l₁ = membersXml l₂ := by
  unfold membersXml
  rw [sortStrings_eq_of_perm h]

theorem getTypesPackageXml_eq_of_perm {e₁ e₂ : List (String × List String)}
    (h : List.Forall₂ (fun a b => a.1 = b.1 ∧ a.2.Perm b.2) e₁ e₂) :
    getTypesPackageXml e₁ = getTypesPackageXml e₂ := by
  unfold getTypesPackageXml
  suffices h' : ∀ acc : String,
      e₁.foldl (fun types e => types ++ typesBlock e.1 (membersXml e.2)) acc =
        e₂.foldl (fun types e => types ++ typesBlock e.1 (membersXml e.2)) acc from
    h' ""
  induction h with
  | nil => intro acc; rfl
  | @cons a b l₁ l₂ hab htail ih =>
    intro acc
    simp only [List.foldl_cons]
    rw [hab.1, membersXml_eq_of_perm hab.2]
    exact ih _

/-- C5: the manifest renders each entity type's members in ascending sorted
order (one member per instance), so rendering the same membership — the same
sets presented in any iteration order — produces byte-identical text. -/
theorem spec_C5 (api_version : String) (e₁ e₂ : List (String × List String))
    (h : List.Forall₂ (fun a b => a.1 = b.1 ∧ a.2.Perm b.2) e₁ e₂) :
    getPackageXmlContent api_version e₁ = getPackageXmlContent api_version e₂ ∧
    ∀ names : List String, List.Sorted (fun a b => a ≤ b) (sortStrings names) ∧
      (sortStrings names).Perm names := by
  constructor
  · unfold getPackageXmlContent
    rw [getTypesPackageXml_eq_of_perm h]
  · intro names
    exact ⟨sortStrings_sorted names, sortStrings_perm names⟩

theorem spec_C5_witness :
    getPackageXmlContent "48.0" [("Layout", ["B", "A"])] =
      getPackageXmlContent "48.0" [("Layout", ["A", "B"])] ∧
    List.Sorted (fun a b => a ≤ b) (sortStrings ["B", "A"]) ∧
    (sortStrings ["B", "A"]).Perm ["B", "A"] := by
  have h := spec_C5 "48.0" [("Layout", ["B", "A"])] [("Layout", ["A", "B"])]
    (List.Forall₂.cons ⟨rfl, List.Perm.swap "A" "B" []⟩ List.Forall₂.nil)
  exact ⟨h.1, (h.2 ["B", "A"]).1, (h.2 ["B", "A"]).2⟩

/-! ## C6: insertion-index resolver -/

theorem getLast?_append_singleton {α : Type} (l : List α) (a : α) :
    (l ++ [a]).getLast? = some a := by
  induction l with
  | nil => rfl
  | cons x rest ih =>
    cases rest with
    | nil => rfl
    | cons y t =>
      rw [List.cons_append, List.cons_append, List.getLast?_cons_cons,
        ← List.cons_append, ih]

theorem findallList_append (tag : String) (l₁ l₂ : List XElem) :
    findallList tag (l₁ ++ l₂) = findallList tag l₁ ++ findallList tag l₂ := by
  induction l₁ with
  | nil => simp [findallList]
  | cons c rest ih =>
    cases c with
    | node i t cs => simp [findallList, ih, List.append_assoc]

theorem indexOfEid_append {l₁ : List XElem} {c : XElem} {l₂ : List XElem}
    (h : ∀ x ∈ l₁, x.eid ≠ c.eid) :
    indexOfEid (l₁ ++ c :: l₂) c.eid = some l₁.length := by
  induction l₁ with
  | nil => simp [indexOfEid]
  | cons x rest ih =>
    have hx : x.eid ≠ c.eid := h x (List.mem_cons_self x rest)
    rw [List.cons_append, indexOfEid, if_neg hx,
      ih (fun y hy => h y (List.mem_cons_of_mem x hy))]
    rfl

/-- C6 (amended): when matching elements exist and the last one in document
order is itself a direct child of the root, the index returned is that
child's position plus one, and inserting a fresh matching element there makes
the next call return the prior index plus one (same-tag siblings stay
contiguous); when no matching element exists the count of root children is
returned, with the same insertion property.  But when the last matching
element is nested below a wrapper, `list.index` raises `ValueError` (`none`)
instead of returning the containing root child's position plus one. -/
theorem spec_C6_amended (ns tag : String) (rid fid : Nat) (rtag : String) :
    (∀ cs : List XElem, findallList (ns ++ tag) cs = [] →
      get_new_tag_index (XElem.node rid rtag cs) tag ns = some cs.length ∧
      ((∀ x ∈ cs, x.eid ≠ fid) →
        get_new_tag_index
          (XElem.node rid rtag (cs ++ [XElem.node fid (ns ++ tag) []])) tag ns =
          some (cs.length + 1))) ∧
    (∀ (cs₁ : List XElem) (c : XElem) (cs₂ : List XElem),
      c.tag = ns ++ tag → findallList (ns ++ tag) c.children = [] →
      findallList (ns ++ tag) cs₂ = [] →
      (∀ x ∈ cs₁, x.eid ≠ c.eid) →
      get_new_tag_index (XElem.node rid rtag (cs₁ ++ c :: cs₂)) tag ns =
        some (cs₁.length + 1) ∧
      ((∀ x ∈ cs₁, x.eid ≠ fid) → c.eid ≠ fid →
        get_new_tag_index
          (XElem.node rid rtag (cs₁ ++ c :: XElem.node fid (ns ++ tag) [] :: cs₂))
          tag ns = some (cs₁.length + 2))) := by
  constructor
  · intro cs h
    constructor
    · simp only [get_new_tag_index, XElem.children]
      rw [h]
      rfl
    · intro hfresh
      have hnew : findallList (ns ++ tag) (cs ++ [XElem.node fid (ns ++ tag) []]) =
          [XElem.node fid (ns ++ tag) []] := by
        rw [findallList_append, h, List.nil_append]
        simp [findallList]
      have hidx : indexOfEid (cs ++ [XElem.node fid (ns ++ tag) []]) fid =
          some cs.length :=
        indexOfEid_append (c := XElem.node fid (ns ++ tag) [])
          (fun x hx => hfresh x hx)
      simp only [get_new_tag_index, XElem.children]
      rw [hnew]
      simp only [List.getLast?_singleton, XElem.eid, hidx]
  · intro cs₁ c cs₂ hctag hcdesc hcs₂ hids
    obtain ⟨ci, ct, cch⟩ := c
    simp only [XElem.tag] at hctag
    subst hctag
    simp only [XElem.children] at hcdesc
    simp only [XElem.eid] at hids
    constructor
    · have htags : findallList (ns ++ tag) (cs₁ ++ XElem.node ci (ns ++ tag) cch :: cs₂) =
          findallList (ns ++ tag) cs₁ ++ [XElem.node ci (ns ++ tag) cch] := by
        rw [findallList_append]
        congr 1
        simp [findallList, hcdesc, hcs₂]
      have hidx : indexOfEid (cs₁ ++ XElem.node ci (ns ++ tag) cch :: cs₂) ci =
          some cs₁.length :=
        indexOfEid_append (c := XElem.node ci (ns ++ tag) cch) hids
      simp only [get_new_tag_index, XElem.children]
      rw [htags]
      simp only [getLast?_append_singleton, XElem.eid, hidx]
    · intro hfr hcne
      have htags : findallList (ns ++ tag)
          (cs₁ ++ XElem.node ci (ns ++ tag) cch ::
            XElem.node fid (ns ++ tag) [] :: cs₂) =
          (findallList (ns ++ tag) cs₁ ++ [XElem.node ci (ns ++ tag) cch]) ++
            [XElem.node fid (ns ++ tag) []] := by
        rw [findallList_append]
        simp [findallList, hcdesc, hcs₂]
      have hsplit : cs₁ ++ XElem.node ci (ns ++ tag) cch ::
          XElem.node fid (ns ++ tag) [] :: cs₂ =
          (cs₁ ++ [XElem.node ci (ns ++ tag) cch]) ++
            XElem.node fid (ns ++ tag) [] :: cs₂ := by
        simp
      have hidx : indexOfEid
          ((cs₁ ++ [XElem.node ci (ns ++ tag) cch]) ++
            XElem.node fid (ns ++ tag) [] :: cs₂) fid =
          some (cs₁ ++ [XElem.node ci (ns ++ tag) cch]).length := by
        refine indexOfEid_append (c := XElem.node fid (ns ++ tag) []) ?_
        intro x hx
        rcases List.mem_append.mp hx with hx1 | hx2
        · exact hfr x hx1
        · rw [List.mem_singleton.mp hx2]
          exact hcne
      simp only [get_new_tag_index, XElem.children]
      rw [htags]
      simp only [getLast?_append_singleton, XElem.eid]
      rw [hsplit, hidx]
      simp [List.length_append]

def nestedRoot : XElem :=
  XElem.node 0 "root" [XElem.node 1 (MD ++ "wrapper") [XElem.node 2 (MD ++ "T") []]]

/-- C6 counterexample: a matching element exists (nested under a wrapper root
child), yet `get_new_tag_index` hits `ValueError` in `list.index` (modelled
`none`) instead of returning the containing root child's position plus one
(`some 1`) as the claim states. -/
theorem spec_C6_cx :
    findallList (MD ++ "T") nestedRoot.children = [XElem.node 2 (MD ++ "T") []] ∧
    get_new_tag_index nestedRoot "T" = none ∧
    (none : Option Nat) ≠ some 1 := by
  have hf : findallList (MD ++ "T") nestedRoot.children =
      [XElem.node 2 (MD ++ "T") []] := by
    simp [nestedRoot, findallList, MD, XElem.children]
  refine ⟨hf, ?_, by decide⟩
  rw [get_new_tag_index, hf]
  rfl

def exChildren : List XElem :=
  [XElem.node 1 "X" [], XElem.node 2 (MD ++ "T") [], XElem.node 3 "Y" [],
   XElem.node 4 (MD ++ "T") []]

def exChildrenIns : List XElem :=
  [XElem.node 1 "X" [], XElem.node 2 (MD ++ "T") [], XElem.node 3 "Y" [],
   XElem.node 4 (MD ++ "T") [], XElem.node 5 (MD ++ "T") []]

theorem spec_C6_witness :
    get_new_tag_index (XElem.node 0 "root" exChildren) "T" = some 4 ∧
    get_new_tag_index (XElem.node 0 "root" exChildrenIns) "T" = some 5 := by
  have h := (spec_C6_amended MD "T" 0 5 "root").2
    [XElem.node 1 "X" [], XElem.node 2 (MD ++ "T") [], XElem.node 3 "Y" []]
    (XElem.node 4 (MD ++ "T") []) []
    rfl (by simp [findallList, XElem.children]) (by simp [findallList]) (by decide)
  exact ⟨h.1, h.2 (by decide) (by decide)⟩

/-- C7: entity resolution fails when no catalog group's contained type list
includes the entity type; otherwise, for the first matching group (scanned in
catalog order), it either fails because the group's convention class is not a
supported single-file form or deterministically returns the group's directory
and extension; and a resolution failure is surfaced before any filesystem
work — the transform run returns the error with an empty deploy area. -/
theorem spec_C7 {Tree : Type} (metadata_map : List (List Nat × List Subentry))
    (entity : String) (tf : Tree → List Nat → Option Tree) (rfs : RetrieveFS Tree)
    (api_names : List (List Nat)) :
    ((∀ e ∈ metadata_map, ∀ s ∈ e.2, s.type ≠ entity) →
      resolveEntity metadata_map entity =
        Except.error (TransformError.unableToLocate entity)) ∧
    (∀ (mm₁ : List (List Nat × List Subentry)) (e : List Nat × List Subentry)
      (mm₂ : List (List Nat × List Subentry)) (cfg : Subentry) (rest : List Subentry),
      metadata_map = mm₁ ++ e :: mm₂ →
      (∀ e' ∈ mm₁, ∀ s ∈ e'.2, s.type ≠ entity) →
      (∃ s ∈ e.2, s.type = entity) →
      e.2 = cfg :: rest →
      resolveEntity metadata_map entity =
        (if cfg.className ∈ supportedParserClasses then Except.ok (e.1, cfg.extension)
         else Except.error (TransformError.unsupportedEntity entity))) ∧
    (∀ err, resolveEntity metadata_map entity = Except.error err →
      transformAll metadata_map entity tf rfs api_names =
        (emptyDeployFS, Except.error err)) := by
  refine ⟨?_, ?_, ?_⟩
  · intro h
    have hfilter : metadata_map.filter (fun e => e.2.any (fun s => s.type == entity)) = [] := by
      rw [List.filter_eq_nil_iff]
      intro e he
      simp only [List.any_eq_true, beq_iff_eq, not_exists]
      intro s
      rw [not_and]
      intro hs
      exact h e he s hs
    unfold resolveEntity
    rw [hfilter]
  · intro mm₁ e mm₂ cfg rest hmm h1 h2 he2
    subst hmm
    have hf1 : mm₁.filter (fun x => x.2.any (fun s => s.type == entity)) = [] := by
      rw [List.filter_eq_nil_iff]
      intro x hx
      simp only [List.any_eq_true, beq_iff_eq, not_exists]
      intro s
      rw [not_and]
      intro hs
      exact h1 x hx s hs
    have hfe : (e.2.any (fun s => s.type == entity)) = true := by
      obtain ⟨s, hs, he⟩ := h2
      exact List.any_eq_true.mpr ⟨s, hs, beq_iff_eq.mpr he⟩
    unfold resolveEntity
    rw [List.filter_append, hf1, List.nil_append, List.filter_cons, if_pos hfe]
    simp [he2]
  · intro err herr
    unfold transformAll
    rw [herr]

def mmFolder : List (List Nat × List Subentry) :=
  [(strBytes "reports", [Subentry.mk "Report" "FolderMetadataParser" (strBytes "report")])]

theorem spec_C7_witness :
    resolveEntity ([] : List (List Nat × List Subentry)) "Layout" =
      Except.error (TransformError.unableToLocate "Layout") ∧
    resolveEntity mmFolder "Report" =
      Except.error (TransformError.unsupportedEntity "Report") ∧
    transformAll ([] : List (List Nat × List Subentry)) "Layout"
        (fun (t : Nat) _ => some t) rfsNone [] =
      (emptyDeployFS, Except.error (TransformError.unableToLocate "Layout")) := by
  have h1 := (spec_C7 [] "Layout" (fun (t : Nat) _ => some t) rfsNone []).1
    (by simp)
  have h2 := (spec_C7 mmFolder "Report" (fun (t : Nat) _ => some t) rfsNone []).2.1
    [] (strBytes "reports", [Subentry.mk "Report" "FolderMetadataParser" (strBytes "report")])
    [] (Subentry.mk "Report" "FolderMetadataParser" (strBytes "report")) []
    rfl (by simp) ⟨Subentry.mk "Report" "FolderMetadataParser" (strBytes "report"),
      by simp, rfl⟩ rfl
  have h3 := (spec_C7 [] "Layout" (fun (t : Nat) _ => some t) rfsNone []).2.2
    (TransformError.unableToLocate "Layout") h1
  refine ⟨h1, ?_, h3⟩
  rw [h2]
  decide

/-- C8: a requested instance whose source file is absent makes the run fail
with an error naming that exact path, aborting before any surviving
membership is produced; files written for instances processed earlier in the
same run remain in the deploy area (no rollback); and a transform failure
prevents the deploy manifest from ever being written. -/
theorem spec_C8 {Tree : Type} (metadata_map : List (List Nat × List Subentry))
    (entity : String) (tf : Tree → List Nat → Option Tree) (rfs : RetrieveFS Tree)
    (getTree : List Nat → Tree) (dir ext : List Nat) (pre : List (List Nat))
    (n : List Nat) (post : List (List Nat))
    (hres : resolveEntity metadata_map entity = Except.ok (dir, ext))
    (hstar : starName ∉ pre ++ n :: post)
    (hpre : ∀ m ∈ pre,
      rfs.content (filePath dir m ext) = some (FileContent.xml (getTree m)))
    (hn : rfs.content (filePath dir n ext) = none) :
    transformAll metadata_map entity tf rfs (pre ++ n :: post) =
      (⟨if pre.all (fun m => (tf (getTree m) (unquoteB m)).isNone) then [] else [dir],
        writesOf dir ext tf getTree pre⟩,
       Except.error (TransformError.cannotFind (filePath dir n ext))) ∧
    (∀ (E : Type) (err : E) (r d : Bool) (rOut dOut pOut : Except E Unit),
      RunEvent.writeManifest ∉ (runTask r d rOut (Except.error err) dOut pOut).1 ∧
      RunEvent.deployStep ∉ (runTask r d rOut (Except.error err) dOut pOut).1) := by
  constructor
  · rw [transformAll, hres]
    show (match expandWildcard rfs dir ext (pre ++ n :: post) with
      | Except.error e => (emptyDeployFS, Except.error e)
      | Except.ok names =>
        match processNames dir ext tf rfs names emptyDeployFS [] with
        | (fs, Except.ok removed) =>
          (fs, Except.ok (names.filter (fun x => decide (x ∉ removed))))
        | (fs, Except.error e) => (fs, Except.error e)) = _
    rw [expandWildcard, if_neg hstar]
    show (match processNames dir ext tf rfs (pre ++ n :: post) emptyDeployFS [] with
      | (fs, Except.ok removed) =>
        ((fs : DeployFS Tree),
          Except.ok ((pre ++ n :: post).filter (fun x => decide (x ∉ removed))))
      | (fs, Except.error e) => (fs, Except.error e)) = _
    rw [processNames_clean dir ext tf rfs getTree pre (n :: post) hpre emptyDeployFS []]
    simp only [processNames, hn]
    simp [emptyDeployFS, addDir]
  · intro E err r d rOut dOut pOut
    cases r <;> cases d <;> cases rOut <;>
      simp [runTask, runBody, andThenStep]

def nameZ : List Nat := strBytes "Z"

theorem spec_C8_witness :
    transformAll mmLayout "Layout" tfSuppressX rfsXY [nameY, nameZ] =
      (⟨if [nameY].all (fun m => (tfSuppressX ((fun _ => (0 : Nat)) m) (unquoteB m)).isNone)
          then [] else [layoutsDir],
        writesOf layoutsDir layoutExt tfSuppressX (fun _ => 0) [nameY]⟩,
       Except.error (TransformError.cannotFind (filePath layoutsDir nameZ layoutExt))) ∧
    RunEvent.writeManifest ∉
      (runTask true true (Except.ok ()) (Except.error ()) (Except.ok ())
        (Except.ok ())).1 := by
  have h := spec_C8 mmLayout "Layout" tfSuppressX rfsXY (fun _ => 0) layoutsDir layoutExt
    [nameY] nameZ [] (by decide) (by decide)
    (fun m hm => by rw [List.mem_singleton.mp hm]; rfl) (by decide)
  exact ⟨h.1, (h.2 Unit () true true (Except.ok ()) (Except.ok ()) (Except.ok ())).1⟩

/-- C9: the two staging directories live inside the temporary-directory
scope: every run starts by creating the scratch directory and — whatever each
pipeline step's outcome, success or error in retrieve, transform, deploy or
post-deploy — the trace ends with its scope-guaranteed removal. -/
theorem spec_C9 {E : Type} (retrieve deploy : Bool)
    (rOut tOut dOut pOut : Except E Unit) :
    (runTask retrieve deploy rOut tOut dOut pOut).1.head? = some RunEvent.mkTempDir ∧
    (runTask retrieve deploy rOut tOut dOut pOut).1.getLast? =
      some RunEvent.rmTempDir := by
  constructor
  · rfl
  · rw [show (runTask retrieve deploy rOut tOut dOut pOut).1 =
        (RunEvent.mkTempDir :: (runBody retrieve deploy rOut tOut dOut pOut).1) ++
          [RunEvent.rmTempDir] from rfl]
    exact getLast?_append_singleton _ _

/-- C10: a source file that fails to parse aborts the run with an error
carrying the offending file path and the underlying cause; files written for
earlier instances remain. -/
theorem spec_C10 {Tree : Type} (metadata_map : List (List Nat × List Subentry))
    (entity : String) (tf : Tree → List Nat → Option Tree) (rfs : RetrieveFS Tree)
    (getTree : List Nat → Tree) (dir ext : List Nat) (pre : List (List Nat))
    (n : List Nat) (post : List (List Nat)) (cause : String)
    (hres : resolveEntity metadata_map entity = Except.ok (dir, ext))
    (hstar : starName ∉ pre ++ n :: post)
    (hpre : ∀ m ∈ pre,
      rfs.content (filePath dir m ext) = some (FileContent.xml (getTree m)))
    (hn : rfs.content (filePath dir n ext) = some (FileContent.malformed cause)) :
    transformAll metadata_map entity tf rfs (pre ++ n :: post) =
      (⟨if pre.all (fun m => (tf (getTree m) (unquoteB m)).isNone) then [] else [dir],
        writesOf dir ext tf getTree pre⟩,
       Except.error (TransformError.parseFailure (filePath dir n ext) cause)) := by
  rw [transformAll, hres]
  show (match expandWildcard rfs dir ext (pre ++ n :: post) with
    | Except.error e => (emptyDeployFS, Except.error e)
    | Except.ok names =>
      match processNames dir ext tf rfs names emptyDeployFS [] with
      | (fs, Except.ok removed) =>
        (fs, Except.ok (names.filter (fun x => decide (x ∉ removed))))
      | (fs, Except.error e) => (fs, Except.error e)) = _
  rw [expandWildcard, if_neg hstar]
  show (match processNames dir ext tf rfs (pre ++ n :: post) emptyDeployFS [] with
    | (fs, Except.ok removed) =>
      ((fs : DeployFS Tree),
        Except.ok ((pre ++ n :: post).filter (fun x => decide (x ∉ removed))))
    | (fs, Except.error e) => (fs, Except.error e)) = _
  rw [processNames_clean dir ext tf rfs getTree pre (n :: post) hpre emptyDeployFS []]
  simp only [processNames, hn]
  simp [emptyDeployFS, addDir]

def rfsYbad : RetrieveFS Nat :=
  { listing := fun _ => none,
    content := fun p =>
      if p = filePath layoutsDir nameY layoutExt then some (FileContent.xml 0)
      else if p = filePath layoutsDir nameZ layoutExt then
        some (FileContent.malformed "XML syntax error")
      else none }

theorem spec_C10_witness :
    transformAll mmLayout "Layout" tfSuppressX rfsYbad [nameY, nameZ] =
      (⟨if [nameY].all (fun m => (tfSuppressX ((fun _ => (0 : Nat)) m) (unquoteB m)).isNone)
          then [] else [layoutsDir],
        writesOf layoutsDir layoutExt tfSuppressX (fun _ => 0) [nameY]⟩,
       Except.error (TransformError.parseFailure (filePath layoutsDir nameZ layoutExt)
         "XML syntax error")) :=
  spec_C10 mmLayout "Layout" tfSuppressX rfsYbad (fun _ => 0) layoutsDir layoutExt
    [nameY] nameZ [] "XML syntax error" (by decide) (by decide)
    (fun m hm => by rw [List.mem_singleton.mp hm]; rfl) (by decide)
